import Mathlib

/-!
# Verification of `solve` (examples/c/src.c)

`solve factor_count factors upper_bound` scans the candidates
`multiple = 1, 2, ..., upper_bound - 1` and adds to a 64-bit accumulator every
candidate that is divisible by at least one of the factors.

The embedding keeps the C control flow: an inner loop over the factor array
with a first-match `break`, an outer loop over the candidates, unsigned 64-bit
arithmetic modelled on `Nat` with explicit reduction modulo `2^64`, and the
remainder by a zero factor (undefined in C) modelled as a fault.
-/

namespace PluginServer

/-- Number of values of a `uint64_t`: arithmetic on it is taken modulo this. -/
def UINT64_MOD : Nat := 18446744073709551616

/-- What a call of `solve` produces: the returned number, a fault caused by
`multiple % 0`, or exhaustion of the fuel given to the outer loop. -/
inductive Outcome where
  | value (n : Nat)
  | invalidFactor
  | outOfFuel
  deriving DecidableEq, Repr

/-- The two variables that live across iterations of the outer loop. -/
structure State where
  multiple : Nat
  sum : Nat
  deriving DecidableEq, Repr

/-- Inner loop, src.c lines 13-18: the factors are tested in array order; the
first one dividing `multiple` adds `multiple` to `sum` (modulo `2^64`) and
breaks. Testing a zero factor is a fault (`none`). The list is the remaining
part of the array, `factors[i..factor_count)`. -/
def innerLoop (multiple : Nat) : List Nat → Nat → Option Nat
  | [], sum => some sum
  | f :: rest, sum =>
    if f = 0 then none
    else if multiple % f = 0 then some ((sum + multiple) % UINT64_MOD)
    else innerLoop multiple rest sum

/-- One iteration of the outer loop, src.c lines 12-18 followed by
`multiple++` on a `uint64_t`. -/
def step (factors : List Nat) (s : State) : Option State :=
  match innerLoop s.multiple factors s.sum with
  | none => none
  | some sum' => some ⟨(s.multiple + 1) % UINT64_MOD, sum'⟩

/-- Outer loop, src.c lines 11-20: while `multiple < upper_bound` run the
body; on exit return `sum`. The fuel bounds the number of executions of the
body. -/
def loop (factors : List Nat) (upper_bound : Nat) : Nat → State → Outcome
  | fuel, s =>
    if s.multiple < upper_bound then
      match fuel with
      | 0 => Outcome.outOfFuel
      | fuel' + 1 =>
        match step factors s with
        | none => Outcome.invalidFactor
        | some s' => loop factors upper_bound fuel' s'
    else Outcome.value s.sum

/-- The function `solve` of src.c, lines 4-21: `sum = 0`, `multiple = 1`, then the
outer loop. `factor_count` is the length of the list. The fuel `upper_bound`
is more than the `upper_bound - 1` iterations the loop can make. -/
def solve (factors : List Nat) (upper_bound : Nat) : Outcome :=
  loop factors upper_bound upper_bound ⟨1, 0⟩

/-- State after `k` completed iterations of the outer loop started in `s`;
`none` when the loop exits or faults before completing `k` iterations. -/
def iterations (factors : List Nat) (upper_bound : Nat) : Nat → State → Option State
  | 0, s => some s
  | k + 1, s =>
    if s.multiple < upper_bound then
      match step factors s with
      | none => none
      | some s' => iterations factors upper_bound k s'
    else none

/-- Inner loop of src.c lines 13-18 instrumented with a counter: the second
component is the number of executions of the loop body (tests of a factor);
the first component is what `innerLoop` computes. -/
def innerLoopCounted (multiple : Nat) : List Nat → Nat → Option Nat × Nat
  | [], sum => (some sum, 0)
  | f :: rest, sum =>
    if f = 0 then (none, 1)
    else if multiple % f = 0 then (some ((sum + multiple) % UINT64_MOD), 1)
    else ((innerLoopCounted multiple rest sum).1, (innerLoopCounted multiple rest sum).2 + 1)

/-- The factors that precede the first zero of the array. -/
def beforeFirstZero (factors : List Nat) : List Nat :=
  factors.takeWhile (fun f => decide (f ≠ 0))

/-- Whether some factor divides `m`. -/
def qualifies (factors : List Nat) (m : Nat) : Prop := ∃ f ∈ factors, f ∣ m

instance (factors : List Nat) (m : Nat) : Decidable (qualifies factors m) := by
  unfold qualifies; infer_instance

/-- The contract in the words of the specification: the exact sum of the
integers `m` with `1 ≤ m < upper_bound` that some factor divides, each taken
once. -/
def sumOfMultiples (factors : List Nat) (upper_bound : Nat) : Nat :=
  ∑ m ∈ (Finset.Ico 1 upper_bound).filter (fun m => qualifies factors m), m

/-- The sum of the qualifying integers of `[a, b)`. -/
def sumFrom (factors : List Nat) (a b : Nat) : Nat :=
  ∑ m ∈ (Finset.Ico a b).filter (fun m => qualifies factors m), m

/-- Least common multiple of the factors selected by a sublist. -/
def lcmList (S : List Nat) : Nat := S.foldr Nat.lcm 1

/-- The closed form `k*(k+1)/2*lcm` with `k = floor((upper_bound-1)/lcm)`; the
truncated subtraction gives `k = 0` when `upper_bound = 0`. -/
def multiplesClosedForm (l upper_bound : Nat) : Nat :=
  (upper_bound - 1) / l * ((upper_bound - 1) / l + 1) / 2 * l

/-- The inclusion-exclusion value in the words of the specification: the sum
over the non-empty selections `S` of factor positions of
`(-1)^(|S|+1) * k*(k+1)/2 * lcm(S)`. -/
def inclusionExclusion (factors : List Nat) (upper_bound : Nat) : Int :=
  ((factors.sublists'.filter (fun S => decide (S ≠ []))).map
    (fun S => (-1 : Int) ^ (S.length + 1)
      * (multiplesClosedForm (lcmList S) upper_bound : Int))).sum

/-- Signed sum over all selections of factor positions, the empty one
included, of the closed forms for `lcm d (lcm S)`. -/
def signedSum (d : Nat) (factors : List Nat) (upper_bound : Nat) : Int :=
  (factors.sublists'.map
    (fun S => (-1 : Int) ^ S.length
      * (multiplesClosedForm (Nat.lcm d (lcmList S)) upper_bound : Int))).sum

/-- Sum of the multiples of `d` in `[1, upper_bound)` that no factor divides. -/
def unqualifiedSum (d : Nat) (factors : List Nat) (upper_bound : Nat) : Nat :=
  ∑ m ∈ (Finset.Ico 1 upper_bound).filter (fun m => d ∣ m ∧ ¬ qualifies factors m), m

/-! ## Shared lemmas -/

theorem sumOfMultiples_eq_sumFrom (factors : List Nat) (ub : Nat) :
    sumOfMultiples factors ub = sumFrom factors 1 ub := rfl

theorem sumFrom_self (factors : List Nat) (a : Nat) : sumFrom factors a a = 0 := by
  simp [sumFrom]

theorem sumFrom_succ_bot (factors : List Nat) {a b : Nat} (h : a < b) :
    sumFrom factors a b
      = (if qualifies factors a then a else 0) + sumFrom factors (a + 1) b := by
  unfold sumFrom
  rw [Finset.sum_filter, Finset.sum_filter, Finset.sum_eq_sum_Ico_succ_bot h]

theorem sumFrom_succ_top (factors : List Nat) {a b : Nat} (h : a ≤ b) :
    sumFrom factors a (b + 1)
      = sumFrom factors a b + (if qualifies factors b then b else 0) := by
  unfold sumFrom
  rw [Finset.sum_filter, Finset.sum_filter, Finset.sum_Ico_succ_top h]

/-- With no zero among the factors the inner loop never faults, and it adds
`multiple` exactly when some factor divides it. -/
theorem innerLoop_eq (m : Nat) (factors : List Nat) (sum : Nat)
    (hnz : ∀ f ∈ factors, f ≠ 0) :
    innerLoop m factors sum
      = some (if qualifies factors m then (sum + m) % UINT64_MOD else sum) := by
  induction factors with
  | nil => simp [innerLoop, qualifies]
  | cons f rest ih =>
    have hf : f ≠ 0 := hnz f (List.mem_cons_self _ _)
    have hrest : ∀ g ∈ rest, g ≠ 0 := fun g hg => hnz g (List.mem_cons_of_mem _ hg)
    by_cases hdiv : m % f = 0
    · have hq : qualifies (f :: rest) m :=
        ⟨f, List.mem_cons_self _ _, Nat.dvd_of_mod_eq_zero hdiv⟩
      simp [innerLoop, hf, hdiv, hq]
    · have hiff : qualifies (f :: rest) m ↔ qualifies rest m := by
        constructor
        · rintro ⟨g, hg, hgm⟩
          rcases List.mem_cons.mp hg with rfl | hg
          · exact absurd (Nat.mod_eq_zero_of_dvd hgm) hdiv
          · exact ⟨g, hg, hgm⟩
        · rintro ⟨g, hg, hgm⟩
          exact ⟨g, List.mem_cons_of_mem _ hg, hgm⟩
      simp only [innerLoop, hf, hdiv, if_false, ih hrest, hiff]

theorem step_eq (factors : List Nat) (s : State) (hnz : ∀ f ∈ factors, f ≠ 0) :
    step factors s
      = some ⟨(s.multiple + 1) % UINT64_MOD,
          if qualifies factors s.multiple then (s.sum + s.multiple) % UINT64_MOD
          else s.sum⟩ := by
  simp [step, innerLoop_eq s.multiple factors s.sum hnz]

theorem loop_eq (factors : List Nat) (ub : Nat) (hnz : ∀ f ∈ factors, f ≠ 0)
    (hub : ub < UINT64_MOD) :
    ∀ (fuel m s : Nat), m ≤ ub → ub - m ≤ fuel → s < UINT64_MOD →
      loop factors ub fuel ⟨m, s⟩
        = Outcome.value ((s + sumFrom factors m ub) % UINT64_MOD) := by
  intro fuel
  induction fuel with
  | zero =>
    intro m s hm hfuel hs
    have : m = ub := by omega
    subst this
    unfold loop
    simp [sumFrom_self, Nat.mod_eq_of_lt hs]
  | succ fuel ih =>
    intro m s hm hfuel hs
    by_cases hlt : m < ub
    · unfold loop
      have hm1 : (m + 1) % UINT64_MOD = m + 1 := Nat.mod_eq_of_lt (by omega)
      simp only [hlt, if_true, step_eq factors ⟨m, s⟩ hnz, hm1]
      have hU : 0 < UINT64_MOD := by unfold UINT64_MOD; omega
      rw [ih (m + 1) _ (by omega) (by omega)
        (by split <;> first | exact Nat.mod_lt _ hU | exact hs)]
      rw [sumFrom_succ_bot factors hlt]
      congr 1
      split
      · rw [Nat.mod_add_mod, Nat.add_assoc]
      · simp
    · have : m = ub := by omega
      subst this
      unfold loop
      simp [sumFrom_self, Nat.mod_eq_of_lt hs]

theorem solve_eq (factors : List Nat) (ub : Nat) (hnz : ∀ f ∈ factors, f ≠ 0)
    (hub : ub < UINT64_MOD) :
    solve factors ub = Outcome.value (sumOfMultiples factors ub % UINT64_MOD) := by
  unfold solve
  rcases Nat.eq_zero_or_pos ub with h0 | hpos
  · subst h0
    unfold loop
    simp [sumOfMultiples]
  · rw [loop_eq factors ub hnz hub ub 1 0 (by omega) (by omega) (by unfold UINT64_MOD; omega)]
    simp [sumOfMultiples_eq_sumFrom]

/-- Scanning candidate `1` faults when the array holds a zero that no factor
`1` precedes: every factor before the zero is at least `2` and leaves
remainder `1`. -/
theorem innerLoop_one_fault (factors : List Nat) (sum : Nat) (hzero : 0 ∈ factors)
    (hone : ∀ f ∈ factors.takeWhile (fun f => decide (f ≠ 0)), f ≠ 1) :
    innerLoop 1 factors sum = none := by
  induction factors with
  | nil => simp at hzero
  | cons f rest ih =>
    by_cases hf : f = 0
    · simp [innerLoop, hf]
    · have htw : (f :: rest).takeWhile (fun f => decide (f ≠ 0))
          = f :: rest.takeWhile (fun f => decide (f ≠ 0)) := by
        simp [List.takeWhile, hf]
      rw [htw] at hone
      have hf1 : f ≠ 1 := hone f (List.mem_cons_self _ _)
      have hmod : 1 % f ≠ 0 := by
        rw [Nat.mod_eq_of_lt (by omega)]; omega
      have hz : 0 ∈ rest := by
        rcases List.mem_cons.mp hzero with h | h
        · exact absurd h.symm hf
        · exact h
      simp only [innerLoop, hf, hmod, if_false]
      exact ih hz (fun g hg => hone g (List.mem_cons_of_mem _ hg))

theorem sumOfMultiples_congr (F G : List Nat) (ub : Nat)
    (hset : ∀ x, x ∈ F ↔ x ∈ G) : sumOfMultiples F ub = sumOfMultiples G ub := by
  unfold sumOfMultiples
  have hq : ∀ m, qualifies F m ↔ qualifies G m := by
    intro m
    constructor
    · rintro ⟨f, hf, hd⟩; exact ⟨f, (hset f).mp hf, hd⟩
    · rintro ⟨f, hf, hd⟩; exact ⟨f, (hset f).mpr hf, hd⟩
  congr 1
  exact Finset.filter_congr (fun m _ => hq m)

theorem sumOfMultiples_nil (ub : Nat) : sumOfMultiples [] ub = 0 := by
  simp [sumOfMultiples, qualifies]

/-- The sum of all integers of `[1, n)`. -/
theorem sum_Ico_one (n : Nat) : ∑ m ∈ Finset.Ico 1 n, m = n * (n - 1) / 2 := by
  rcases Nat.eq_zero_or_pos n with h0 | hpos
  · subst h0; simp
  · have h := Finset.sum_range_id n
    rw [Finset.range_eq_Ico, Finset.sum_eq_sum_Ico_succ_bot hpos] at h
    simpa using h

theorem sumOfMultiples_one (n : Nat) : sumOfMultiples [1] n = n * (n - 1) / 2 := by
  have : ∀ m, qualifies [1] m := fun m => ⟨1, List.mem_singleton.mpr rfl, one_dvd m⟩
  unfold sumOfMultiples
  rw [Finset.filter_true_of_mem (fun m _ => this m), sum_Ico_one]

theorem sumOfMultiples_le (factors : List Nat) (n : Nat) :
    sumOfMultiples factors n ≤ n * (n - 1) / 2 := by
  rw [← sum_Ico_one]
  unfold sumOfMultiples
  exact Finset.sum_le_sum_of_subset (Finset.filter_subset _ _)

theorem triangle_mono {n ub : Nat} (h : n ≤ ub) : n * (n - 1) / 2 ≤ ub * (ub - 1) / 2 :=
  Nat.div_le_div_right (Nat.mul_le_mul h (by omega))

theorem solve_one_eq (n : Nat) (hn : n < UINT64_MOD) :
    solve [1] n = Outcome.value (n * (n - 1) / 2 % UINT64_MOD) := by
  rw [solve_eq [1] n (by simp) hn, sumOfMultiples_one]

theorem iterations_eq (factors : List Nat) (ub : Nat) (hnz : ∀ f ∈ factors, f ≠ 0)
    (hub : ub < UINT64_MOD) :
    ∀ (k m s : Nat), m + k ≤ ub → s < UINT64_MOD →
      iterations factors ub k ⟨m, s⟩
        = some ⟨m + k, (s + sumFrom factors m (m + k)) % UINT64_MOD⟩ := by
  intro k
  induction k with
  | zero =>
    intro m s _ hs
    simp [iterations, sumFrom_self, Nat.mod_eq_of_lt hs]
  | succ k ih =>
    intro m s hm hs
    have hlt : m < ub := by omega
    have hm1 : (m + 1) % UINT64_MOD = m + 1 := Nat.mod_eq_of_lt (by omega)
    have hU : 0 < UINT64_MOD := by unfold UINT64_MOD; omega
    unfold iterations
    simp only [hlt, if_true, step_eq factors ⟨m, s⟩ hnz, hm1]
    rw [ih (m + 1) _ (by omega)
      (by split <;> first | exact Nat.mod_lt _ hU | exact hs)]
    rw [sumFrom_succ_bot factors (show m < m + (k + 1) by omega)]
    have hidx : m + 1 + k = m + (k + 1) := by omega
    rw [hidx]
    congr 2
    split
    · rw [Nat.mod_add_mod, Nat.add_assoc]
    · simp

/-! ## Inclusion-exclusion -/

/-- The multiples of `l` in `[1, ub)` add up to the closed form. -/
theorem sum_multiples_eq_closedForm (l : Nat) (hl : 0 < l) (ub : Nat) :
    ∑ m ∈ (Finset.Ico 1 ub).filter (fun m => l ∣ m), m = multiplesClosedForm l ub := by
  unfold multiplesClosedForm
  induction ub with
  | zero => simp
  | succ n ih =>
    rcases Nat.eq_zero_or_pos n with h0 | hpos
    · subst h0; simp
    · rw [Finset.sum_filter] at ih ⊢
      rw [Finset.sum_Ico_succ_top hpos, ih]
      obtain ⟨j, rfl⟩ : ∃ j, n = j + 1 := ⟨n - 1, by omega⟩
      simp only [Nat.add_sub_cancel]
      rw [Nat.succ_div]
      by_cases hd : l ∣ j + 1
      · simp only [hd, if_true]
        obtain ⟨c, hc⟩ := hd
        have hjl : j / l + 1 = c := by
          have : (j + 1) / l = c := by rw [hc]; exact Nat.mul_div_cancel_left c hl
          rw [Nat.succ_div] at this
          simpa [show l ∣ j + 1 from ⟨c, hc⟩] using this
        have heven : 2 ∣ j / l * (j / l + 1) := (Nat.even_mul_succ_self _).two_dvd
        have heven2 : 2 ∣ (j / l + 1) * (j / l + 1 + 1) := (Nat.even_mul_succ_self _).two_dvd
        obtain ⟨a, ha⟩ := heven
        obtain ⟨b, hb⟩ := heven2
        rw [ha, hb, Nat.mul_div_cancel_left _ (by omega : 0 < 2),
          Nat.mul_div_cancel_left _ (by omega : 0 < 2)]
        have hab : b = a + (j / l + 1) := by nlinarith
        rw [hab, hc, ← hjl]
        ring
      · simp [hd]

theorem lcmList_cons (a : Nat) (S : List Nat) :
    lcmList (a :: S) = Nat.lcm a (lcmList S) := rfl

theorem sum_map_neg_int {α : Type} (L : List α) (g : α → Int) :
    (L.map (fun x => - g x)).sum = - (L.map g).sum := by
  induction L with
  | nil => simp
  | cons x L ih => simp only [List.map_cons, List.sum_cons, ih]; ring

/-- Adding a factor `a` splits the signed sum by whether `a` is selected. -/
theorem signedSum_cons (d a : Nat) (F : List Nat) (ub : Nat) :
    signedSum d (a :: F) ub = signedSum d F ub - signedSum (Nat.lcm d a) F ub := by
  unfold signedSum
  rw [List.sublists'_cons, List.map_append, List.sum_append, List.map_map, sub_eq_add_neg,
    ← sum_map_neg_int]
  congr 3
  funext S
  simp only [Function.comp, List.length_cons, lcmList_cons, pow_succ, Nat.lcm_assoc]
  ring

/-- The non-empty selections carry the closed form for `d` minus the signed
sum over all selections. -/
theorem nonempty_selection_sum (F : List Nat) (ub : Nat) :
    ∀ d : Nat,
      ((F.sublists'.filter (fun S => decide (S ≠ []))).map
        (fun S => (-1 : Int) ^ (S.length + 1)
          * (multiplesClosedForm (Nat.lcm d (lcmList S)) ub : Int))).sum
        = (multiplesClosedForm d ub : Int) - signedSum d F ub := by
  induction F with
  | nil =>
    intro d
    simp [signedSum, lcmList]
  | cons a F ih =>
    intro d
    have hfilter : (List.map (List.cons a) F.sublists').filter (fun S => decide (S ≠ []))
        = List.map (List.cons a) F.sublists' := by
      apply List.filter_eq_self.mpr
      intro S hS
      obtain ⟨T, _, rfl⟩ := List.mem_map.mp hS
      simp
    rw [List.sublists'_cons, List.filter_append, hfilter, List.map_append, List.sum_append,
      ih d, signedSum_cons, List.map_map]
    have hsel : (List.map ((fun S => (-1 : Int) ^ (S.length + 1)
          * (multiplesClosedForm (Nat.lcm d (lcmList S)) ub : Int)) ∘ List.cons a)
          F.sublists').sum = signedSum (Nat.lcm d a) F ub := by
      unfold signedSum
      congr 2
      funext S
      simp only [Function.comp, List.length_cons, lcmList_cons, pow_succ, Nat.lcm_assoc]
      ring
    rw [hsel]
    ring

theorem inclusionExclusion_eq (F : List Nat) (ub : Nat) :
    inclusionExclusion F ub = (multiplesClosedForm 1 ub : Int) - signedSum 1 F ub := by
  have h := nonempty_selection_sum F ub 1
  simpa [inclusionExclusion, Nat.lcm_one_left] using h

/-- Adding a factor `a` removes from the unqualified multiples of `d` those
that `a` divides, which are the unqualified multiples of `lcm d a`. -/
theorem unqualifiedSum_cons (d a : Nat) (F : List Nat) (ub : Nat) :
    unqualifiedSum d F ub = unqualifiedSum d (a :: F) ub + unqualifiedSum (Nat.lcm d a) F ub := by
  unfold unqualifiedSum
  rw [← Finset.sum_filter_add_sum_filter_not
    ((Finset.Ico 1 ub).filter (fun m => d ∣ m ∧ ¬ qualifies F m)) (fun m => ¬ a ∣ m),
    Finset.filter_filter, Finset.filter_filter]
  have hq : ∀ m, qualifies (a :: F) m ↔ a ∣ m ∨ qualifies F m := by
    intro m
    simp [qualifies]
  congr 1
  · apply Finset.sum_congr _ (fun _ _ => rfl)
    apply Finset.filter_congr
    intro m _
    rw [hq]
    tauto
  · apply Finset.sum_congr _ (fun _ _ => rfl)
    apply Finset.filter_congr
    intro m _
    rw [Nat.lcm_dvd_iff]
    tauto

theorem signedSum_eq_unqualifiedSum (F : List Nat) (ub : Nat) (hpos : ∀ f ∈ F, 0 < f) :
    ∀ d : Nat, 0 < d → signedSum d F ub = (unqualifiedSum d F ub : Int) := by
  induction F with
  | nil =>
    intro d hd
    have h := sum_multiples_eq_closedForm d hd ub
    simp [signedSum, lcmList, unqualifiedSum, qualifies, h]
  | cons a F ih =>
    intro d hd
    have ha : 0 < a := hpos a (List.mem_cons_self _ _)
    have hF : ∀ f ∈ F, 0 < f := fun f hf => hpos f (List.mem_cons_of_mem _ hf)
    rw [signedSum_cons, ih hF d hd, ih hF (Nat.lcm d a) (Nat.lcm_pos hd ha),
      unqualifiedSum_cons d a F ub]
    push_cast
    ring

/-- The exact contract sum equals the inclusion-exclusion value. -/
theorem sumOfMultiples_eq_inclusionExclusion (F : List Nat) (ub : Nat)
    (hpos : ∀ f ∈ F, 0 < f) :
    (sumOfMultiples F ub : Int) = inclusionExclusion F ub := by
  rw [inclusionExclusion_eq, signedSum_eq_unqualifiedSum F ub hpos 1 (by decide)]
  have hall : sumOfMultiples F ub + unqualifiedSum 1 F ub = multiplesClosedForm 1 ub := by
    rw [← sum_multiples_eq_closedForm 1 (by decide) ub]
    unfold sumOfMultiples unqualifiedSum
    simp only [one_dvd, true_and, Finset.filter_True]
    exact Finset.sum_filter_add_sum_filter_not _ _ _
  rw [← hall]
  push_cast
  ring

/-! ## The claims -/

/-- C1: for non-zero factors and a 64-bit upper bound, `solve` returns, modulo
`2^64`, the sum of exactly those `m` with `1 ≤ m < upper_bound` that at least
one factor divides, each counted once. -/
theorem solve_returns_sum_of_multiples (factors : List Nat) (upper_bound : Nat)
    (hnz : ∀ f ∈ factors, f ≠ 0) (hub : upper_bound < UINT64_MOD) :
    solve factors upper_bound
      = Outcome.value
          ((∑ m ∈ (Finset.Ico 1 upper_bound).filter (fun m => ∃ f ∈ factors, f ∣ m), m)
            % UINT64_MOD) :=
  solve_eq factors upper_bound hnz hub

/-- Witness of C1, the case of the test: factors 3 and 5 below 10 give
3 + 5 + 6 + 9 = 23. -/
theorem solve_returns_sum_of_multiples_witness :
    solve [3, 5] 10
        = Outcome.value
            ((∑ m ∈ (Finset.Ico 1 10).filter (fun m => ∃ f ∈ [3, 5], f ∣ m), m)
              % UINT64_MOD)
      ∧ (∑ m ∈ (Finset.Ico 1 10).filter (fun m => ∃ f ∈ [3, 5], f ∣ m), m)
          % UINT64_MOD = 3 + 5 + 6 + 9
      ∧ solve [3, 5] 10 = Outcome.value 23 :=
  ⟨solve_returns_sum_of_multiples [3, 5] 10 (by decide) (by decide), by decide, by decide⟩

/-- C2 fails as stated: a list holding a zero can make `solve` return a number,
either because a factor 1 precedes the zero or because no candidate is
scanned at all. -/
theorem solve_zero_factor_returns :
    0 ∈ [1, 0] ∧ solve [1, 0] 10 = Outcome.value 45
      ∧ 0 ∈ [0] ∧ solve [0] 1 = Outcome.value 0 := by
  decide

/-- C2, amended: when the list holds a zero that no factor 1 precedes and
`upper_bound ≥ 2`, `solve` fails with the invalid-factor fault, and it does so
in the first iteration of the scan (candidate 1, accumulator still 0). -/
theorem solve_fails_on_zero_factor (factors : List Nat) (upper_bound : Nat)
    (hzero : 0 ∈ factors)
    (hone : ∀ f ∈ factors.takeWhile (fun f => decide (f ≠ 0)), f ≠ 1)
    (hub : 2 ≤ upper_bound) :
    solve factors upper_bound = Outcome.invalidFactor
      ∧ step factors ⟨1, 0⟩ = none := by
  have hstep : step factors ⟨1, 0⟩ = none := by
    simp [step, innerLoop_one_fault factors 0 hzero hone]
  refine ⟨?_, hstep⟩
  obtain ⟨n, rfl⟩ : ∃ n, upper_bound = n + 1 := ⟨upper_bound - 1, by omega⟩
  unfold solve loop
  simp [hstep]
  omega

/-- Witness of the amended C2 on the list of the specification scenario. -/
theorem solve_fails_on_zero_factor_witness :
    solve [0, 5] 10 = Outcome.invalidFactor ∧ step [0, 5] ⟨1, 0⟩ = none :=
  solve_fails_on_zero_factor [0, 5] 10 (by decide) (by decide) (by decide)

/-- C3: `solve([0, 5], 10)` fails with the invalid-factor fault and returns no
number. -/
theorem solve_zero_five_ten_fails :
    solve [0, 5] 10 = Outcome.invalidFactor ∧ ∀ n, solve [0, 5] 10 ≠ Outcome.value n := by
  have h : solve [0, 5] 10 = Outcome.invalidFactor := by decide
  exact ⟨h, fun n hn => by rw [h] at hn; exact Outcome.noConfusion hn⟩

/-- C4: for non-zero factors the empty ranges `[1, 0)` and `[1, 1)` give 0. -/
theorem solve_empty_range (factors : List Nat) (hnz : ∀ f ∈ factors, f ≠ 0) :
    solve factors 0 = Outcome.value 0 ∧ solve factors 1 = Outcome.value 0 := by
  constructor
  · rw [solve_eq factors 0 hnz (by decide)]; simp [sumOfMultiples]
  · rw [solve_eq factors 1 hnz (by decide)]; simp [sumOfMultiples]

/-- Witness of C4 on the factors of the test. -/
theorem solve_empty_range_witness :
    solve [3, 5] 0 = Outcome.value 0 ∧ solve [3, 5] 1 = Outcome.value 0 :=
  solve_empty_range [3, 5] (by decide)

/-- C5: with an empty factor list `solve` returns 0 for every 64-bit bound. -/
theorem solve_no_factors (N : Nat) (hN : N < UINT64_MOD) :
    solve [] N = Outcome.value 0 := by
  rw [solve_eq [] N (by simp) hN, sumOfMultiples_nil]
  rfl

/-- Witness of C5 at the largest 64-bit bound. -/
theorem solve_no_factors_witness :
    solve [] 18446744073709551615 = Outcome.value 0 :=
  solve_no_factors 18446744073709551615 (by decide)

/-- C6 fails as stated: at `N = 2^33` the closed form exceeds the 64-bit
accumulator, so `solve([1], N)` is not `N*(N-1)/2`. -/
theorem solve_one_not_closed_form :
    8589934592 < UINT64_MOD
      ∧ solve [1] 8589934592 ≠ Outcome.value (8589934592 * (8589934592 - 1) / 2) := by
  refine ⟨by decide, ?_⟩
  rw [solve_one_eq 8589934592 (by decide)]
  intro h
  injection h with h
  revert h
  unfold UINT64_MOD
  norm_num

/-- C6, amended: for every 64-bit bound `N`, `solve([1], N)` returns
`N*(N-1)/2` reduced modulo `2^64`. -/
theorem solve_one_closed_form_mod (N : Nat) (hN : N < UINT64_MOD) :
    solve [1] N = Outcome.value (N * (N - 1) / 2 % UINT64_MOD) :=
  solve_one_eq N hN

/-- Witness of the amended C6 at `N = 2^33`, where the reduction matters. -/
theorem solve_one_closed_form_mod_witness :
    solve [1] 8589934592
      = Outcome.value (8589934592 * (8589934592 - 1) / 2 % UINT64_MOD) :=
  solve_one_closed_form_mod 8589934592 (by decide)

/-- C7: `solve([3, 5], 1000)` returns 233168. -/
theorem solve_three_five_thousand : solve [3, 5] 1000 = Outcome.value 233168 := by
  have hie : (sumOfMultiples [3, 5] 1000 : Int) = 233168 := by
    rw [sumOfMultiples_eq_inclusionExclusion [3, 5] 1000 (by decide)]
    decide
  have hsum : sumOfMultiples [3, 5] 1000 = 233168 := by exact_mod_cast hie
  rw [solve_eq [3, 5] 1000 (by decide) (by decide), hsum]
  rfl

/-- C8: two lists of non-zero factors with the same set of elements give the
same returned number, whatever the order and the repetitions. -/
theorem solve_depends_on_factor_set (F G : List Nat) (upper_bound : Nat)
    (hF : ∀ f ∈ F, f ≠ 0) (hG : ∀ g ∈ G, g ≠ 0) (hset : ∀ x, x ∈ F ↔ x ∈ G)
    (hub : upper_bound < UINT64_MOD) :
    ∃ n, solve F upper_bound = Outcome.value n ∧ solve G upper_bound = Outcome.value n :=
  ⟨sumOfMultiples F upper_bound % UINT64_MOD, solve_eq F upper_bound hF hub, by
    rw [solve_eq G upper_bound hG hub, sumOfMultiples_congr F G upper_bound hset]⟩

/-- Witness of C8: reordering and repeating the factors 3 and 5. -/
theorem solve_depends_on_factor_set_witness :
    ∃ n, solve [3, 5] 16 = Outcome.value n ∧ solve [5, 3, 3, 5] 16 = Outcome.value n :=
  solve_depends_on_factor_set [3, 5] [5, 3, 3, 5] 16 (by decide) (by decide)
    (by intro x; simp only [List.mem_cons, List.mem_singleton, List.not_mem_nil, or_false]; tauto)
    (by decide)

/-- C9: for positive factors (the empty list included) and a 64-bit bound at
which the exact sum of the qualifying candidates fits the accumulator, the
scanning `solve` returns the inclusion-exclusion value. -/
theorem solve_eq_inclusion_exclusion (factors : List Nat) (upper_bound : Nat)
    (hpos : ∀ f ∈ factors, 0 < f) (hub : upper_bound < UINT64_MOD)
    (hfit : sumOfMultiples factors upper_bound < UINT64_MOD) :
    ∃ n, solve factors upper_bound = Outcome.value n
      ∧ (n : Int) = inclusionExclusion factors upper_bound := by
  refine ⟨sumOfMultiples factors upper_bound, ?_,
    sumOfMultiples_eq_inclusionExclusion factors upper_bound hpos⟩
  rw [solve_eq factors upper_bound (fun f hf => Nat.pos_iff_ne_zero.mp (hpos f hf)) hub,
    Nat.mod_eq_of_lt hfit]

/-- Witness of C9: factors 2, 4 and 6 below 100, where the three factors
overlap; both sides are 2450. -/
theorem solve_eq_inclusion_exclusion_witness :
    (∃ n, solve [2, 4, 6] 100 = Outcome.value n
        ∧ (n : Int) = inclusionExclusion [2, 4, 6] 100)
      ∧ inclusionExclusion [2, 4, 6] 100 = 2450 :=
  ⟨solve_eq_inclusion_exclusion [2, 4, 6] 100 (by decide) (by decide)
    (lt_of_le_of_lt (sumOfMultiples_le [2, 4, 6] 100) (by decide)), by decide⟩

/-- C10: for non-zero factors and `upper_bound ≤ 2^32`, after every number `k`
of completed iterations the accumulator holds the exact sum of the qualifying
candidates below `k + 1`, this is at most `upper_bound*(upper_bound-1)/2`, the
next addition stays below `2^64`, and the returned number is the exact sum. -/
theorem solve_no_wrap (factors : List Nat) (upper_bound : Nat)
    (hnz : ∀ f ∈ factors, f ≠ 0) (hub : upper_bound ≤ 4294967296) :
    (∀ k, k + 1 ≤ upper_bound →
        ∃ s, iterations factors upper_bound k ⟨1, 0⟩ = some s
          ∧ s.multiple = k + 1
          ∧ s.sum = sumOfMultiples factors (k + 1)
          ∧ s.sum ≤ upper_bound * (upper_bound - 1) / 2
          ∧ s.sum + s.multiple < UINT64_MOD)
      ∧ upper_bound * (upper_bound - 1) / 2 < UINT64_MOD
      ∧ solve factors upper_bound = Outcome.value (sumOfMultiples factors upper_bound) := by
  have hubU : upper_bound < UINT64_MOD := by unfold UINT64_MOD; omega
  have htri : 4294967296 * (4294967296 - 1) / 2 + 4294967296 < UINT64_MOD := by decide
  have hbound : ∀ n, n ≤ upper_bound →
      sumOfMultiples factors n ≤ upper_bound * (upper_bound - 1) / 2 :=
    fun n hn => le_trans (sumOfMultiples_le factors n) (triangle_mono hn)
  have hmax : upper_bound * (upper_bound - 1) / 2 ≤ 4294967296 * (4294967296 - 1) / 2 :=
    triangle_mono hub
  refine ⟨?_, by omega, ?_⟩
  · intro k hk
    have hlt : sumOfMultiples factors (k + 1) < UINT64_MOD := by
      have := hbound (k + 1) hk; omega
    refine ⟨_, iterations_eq factors upper_bound hnz hubU k 1 0 (by omega)
      (by unfold UINT64_MOD; omega), by simp; omega, ?_, ?_, ?_⟩
    · simp only [Nat.zero_add, Nat.add_comm 1 k, ← sumOfMultiples_eq_sumFrom]
      exact Nat.mod_eq_of_lt hlt
    · simp only [Nat.zero_add, Nat.add_comm 1 k, ← sumOfMultiples_eq_sumFrom]
      rw [Nat.mod_eq_of_lt hlt]
      exact hbound (k + 1) hk
    · simp only [Nat.zero_add, Nat.add_comm 1 k, ← sumOfMultiples_eq_sumFrom]
      rw [Nat.mod_eq_of_lt hlt]
      have := hbound (k + 1) hk
      omega
  · rw [solve_eq factors upper_bound hnz hubU]
    congr 1
    apply Nat.mod_eq_of_lt
    have := hbound upper_bound le_rfl
    omega

/-- Witness of C10 at the largest bound it covers, `2^32`. -/
theorem solve_no_wrap_witness :
    (∀ k, k + 1 ≤ 4294967296 →
        ∃ s, iterations [3, 5] 4294967296 k ⟨1, 0⟩ = some s
          ∧ s.multiple = k + 1
          ∧ s.sum = sumOfMultiples [3, 5] (k + 1)
          ∧ s.sum ≤ 4294967296 * (4294967296 - 1) / 2
          ∧ s.sum + s.multiple < UINT64_MOD)
      ∧ 4294967296 * (4294967296 - 1) / 2 < UINT64_MOD
      ∧ solve [3, 5] 4294967296 = Outcome.value (sumOfMultiples [3, 5] 4294967296) :=
  solve_no_wrap [3, 5] 4294967296 (by decide) (by decide)

/-! ## Failure condition, recurrence and termination -/

theorem beforeFirstZero_ne_zero (factors : List Nat) :
    ∀ f ∈ beforeFirstZero factors, f ≠ 0 := by
  intro f hf
  have h := List.mem_takeWhile_imp hf
  simpa using h

theorem beforeFirstZero_eq_self (factors : List Nat) (hz : 0 ∉ factors) :
    beforeFirstZero factors = factors := by
  unfold beforeFirstZero
  rw [List.takeWhile_eq_self_iff]
  intro f hf
  have : f ≠ 0 := fun h => hz (h ▸ hf)
  simpa using this

/-- When a factor before the first zero divides `m`, the inner loop breaks
before it reaches the zero. -/
theorem innerLoop_beforeFirstZero (m : Nat) (factors : List Nat) (sum : Nat)
    (hq : qualifies (beforeFirstZero factors) m) :
    innerLoop m factors sum = innerLoop m (beforeFirstZero factors) sum := by
  induction factors with
  | nil => rfl
  | cons f rest ih =>
    by_cases hf : f = 0
    · subst hf
      obtain ⟨g, hg, _⟩ := hq
      simp [beforeFirstZero] at hg
    · have htw : beforeFirstZero (f :: rest) = f :: beforeFirstZero rest := by
        simp [beforeFirstZero, List.takeWhile, hf]
      rw [htw] at hq ⊢
      by_cases hdiv : m % f = 0
      · simp [innerLoop, hf, hdiv]
      · have hq2 : qualifies (beforeFirstZero rest) m := by
          obtain ⟨g, hg, hgm⟩ := hq
          rcases List.mem_cons.mp hg with rfl | hg
          · exact absurd (Nat.mod_eq_zero_of_dvd hgm) hdiv
          · exact ⟨g, hg, hgm⟩
        simp only [innerLoop, hf, hdiv, if_false]
        exact ih hq2

theorem loop_zero (factors : List Nat) (ub : Nat) (s : State) :
    loop factors ub 0 s
      = if s.multiple < ub then Outcome.outOfFuel else Outcome.value s.sum := by
  rw [loop]

theorem loop_succ (factors : List Nat) (ub fuel : Nat) (s : State) :
    loop factors ub (fuel + 1) s
      = if s.multiple < ub then
          match step factors s with
          | none => Outcome.invalidFactor
          | some s' => loop factors ub fuel s'
        else Outcome.value s.sum := by
  rw [loop]

theorem loop_beforeFirstZero (factors : List Nat) (ub : Nat)
    (hone : 1 ∈ beforeFirstZero factors) :
    ∀ (fuel : Nat) (s : State),
      loop factors ub fuel s = loop (beforeFirstZero factors) ub fuel s := by
  have hstep : ∀ s : State, step factors s = step (beforeFirstZero factors) s := by
    intro s
    unfold step
    rw [innerLoop_beforeFirstZero s.multiple factors s.sum ⟨1, hone, one_dvd _⟩]
  intro fuel
  induction fuel with
  | zero => intro s; rw [loop_zero, loop_zero]
  | succ fuel ih =>
    intro s
    rw [loop_succ, loop_succ, hstep s]
    cases step (beforeFirstZero factors) s with
    | none => rfl
    | some s' => simp only [ih s']

/-- A zero that no factor 1 precedes makes the first iteration fault. -/
theorem solve_fault (factors : List Nat) (ub : Nat) (hzero : 0 ∈ factors)
    (hone : ∀ f ∈ beforeFirstZero factors, f ≠ 1) (hub : 2 ≤ ub) :
    solve factors ub = Outcome.invalidFactor := by
  have hstep : step factors ⟨1, 0⟩ = none := by
    simp [step, innerLoop_one_fault factors 0 hzero hone]
  obtain ⟨n, rfl⟩ : ∃ n, ub = n + 1 := ⟨ub - 1, by omega⟩
  unfold solve
  rw [loop_succ, hstep]
  simp
  omega

/-- Without a zero, or with a factor 1 before the first zero, `solve` returns
the sum over the factors that precede the first zero. -/
theorem solve_eq_beforeFirstZero (factors : List Nat) (ub : Nat) (hub : ub < UINT64_MOD)
    (h : 0 ∉ factors ∨ 1 ∈ beforeFirstZero factors) :
    solve factors ub
      = Outcome.value (sumOfMultiples (beforeFirstZero factors) ub % UINT64_MOD) := by
  rcases h with hz | hone
  · rw [beforeFirstZero_eq_self factors hz]
    exact solve_eq factors ub (fun f hf h0 => hz (h0 ▸ hf)) hub
  · unfold solve
    rw [loop_beforeFirstZero factors ub hone]
    exact solve_eq (beforeFirstZero factors) ub (beforeFirstZero_ne_zero factors) hub

theorem solve_small_bound (factors : List Nat) (ub : Nat) (hub : ub ≤ 1) :
    solve factors ub = Outcome.value 0 := by
  unfold solve
  cases ub with
  | zero => rw [loop_zero]; simp
  | succ n => rw [loop_succ]; simp; omega

theorem solve_one_zero_eq (n : Nat) (hn : n < UINT64_MOD) :
    solve [1, 0] n = Outcome.value ((∑ m ∈ Finset.Ico 1 n, m) % UINT64_MOD) := by
  rw [solve_eq_beforeFirstZero [1, 0] n hn (Or.inr (by decide))]
  have hb : beforeFirstZero [1, 0] = [1] := by decide
  rw [hb, sumOfMultiples_one, sum_Ico_one]

/-- The exact failure condition. -/
theorem solve_fault_iff (factors : List Nat) (ub : Nat) (hub : ub < UINT64_MOD) :
    (solve factors ub = Outcome.invalidFactor
        ↔ (2 ≤ ub ∧ 0 ∈ factors ∧ ∀ f ∈ beforeFirstZero factors, f ≠ 1))
      ∧ (¬ (2 ≤ ub ∧ 0 ∈ factors ∧ ∀ f ∈ beforeFirstZero factors, f ≠ 1)
          → ∃ n, solve factors ub = Outcome.value n) := by
  have hret : ¬ (2 ≤ ub ∧ 0 ∈ factors ∧ ∀ f ∈ beforeFirstZero factors, f ≠ 1)
      → ∃ n, solve factors ub = Outcome.value n := by
    intro hc
    by_cases h2 : 2 ≤ ub
    · by_cases hz : 0 ∈ factors
      · have hone : 1 ∈ beforeFirstZero factors := by
          by_contra hno
          exact hc ⟨h2, hz, fun f hf h1 => hno (h1 ▸ hf)⟩
        exact ⟨_, solve_eq_beforeFirstZero factors ub hub (Or.inr hone)⟩
      · exact ⟨_, solve_eq_beforeFirstZero factors ub hub (Or.inl hz)⟩
    · exact ⟨0, solve_small_bound factors ub (by omega)⟩
  refine ⟨⟨?_, ?_⟩, hret⟩
  · intro hfail
    by_contra hc
    obtain ⟨n, hn⟩ := hret hc
    rw [hn] at hfail
    exact Outcome.noConfusion hfail
  · rintro ⟨h2, hz, hone⟩
    exact solve_fault factors ub hz hone h2

theorem sumOfMultiples_mono (factors : List Nat) {n m : Nat} (h : n ≤ m) :
    sumOfMultiples factors n ≤ sumOfMultiples factors m := by
  unfold sumOfMultiples
  apply Finset.sum_le_sum_of_subset
  intro x hx
  simp only [Finset.mem_filter, Finset.mem_Ico] at hx ⊢
  exact ⟨⟨hx.1.1, by omega⟩, hx.2⟩

theorem sumOfMultiples_succ (factors : List Nat) {n : Nat} (h : 1 ≤ n) :
    sumOfMultiples factors (n + 1)
      = sumOfMultiples factors n + (if qualifies factors n then n else 0) := by
  rw [sumOfMultiples_eq_sumFrom, sumOfMultiples_eq_sumFrom, sumFrom_succ_top factors h]

theorem iterations_add (factors : List Nat) (ub : Nat) :
    ∀ (a b : Nat) (s : State),
      iterations factors ub (a + b) s
        = match iterations factors ub a s with
          | none => none
          | some s' => iterations factors ub b s' := by
  intro a
  induction a with
  | zero => intro b s; simp [iterations]
  | succ a ih =>
    intro b s
    have hab : a + 1 + b = (a + b) + 1 := by omega
    rw [hab, iterations, iterations]
    split
    · cases step factors s with
      | none => rfl
      | some s' => exact ih b s'
    · rfl

theorem iterations_exit (factors : List Nat) (ub k : Nat) (s : State)
    (h : ¬ s.multiple < ub) : iterations factors ub (k + 1) s = none := by
  rw [iterations]
  simp [h]

/-- From the initial state the first `ub - 1` iterations complete and count
`multiple` up by one each, without reduction modulo `2^64`. -/
theorem iterations_initial (factors : List Nat) (ub : Nat) (hnz : ∀ f ∈ factors, f ≠ 0)
    (hub : ub < UINT64_MOD) (k : Nat) (hk : k ≤ ub - 1) :
    ∃ s, iterations factors ub k ⟨1, 0⟩ = some s ∧ s.multiple = k + 1 := by
  rcases Nat.eq_zero_or_pos ub with h0 | hpos
  · have hk0 : k = 0 := by omega
    subst hk0
    exact ⟨⟨1, 0⟩, rfl, rfl⟩
  · refine ⟨_, iterations_eq factors ub hnz hub k 1 0 (by omega)
      (by unfold UINT64_MOD; omega), ?_⟩
    simp only
    omega

theorem innerLoopCounted_spec (m : Nat) (factors : List Nat) (sum : Nat) :
    (innerLoopCounted m factors sum).1 = innerLoop m factors sum
      ∧ (innerLoopCounted m factors sum).2 ≤ factors.length := by
  induction factors with
  | nil => simp [innerLoopCounted, innerLoop]
  | cons f rest ih =>
    by_cases hf : f = 0
    · simp [innerLoopCounted, innerLoop, hf]
    · by_cases hdiv : m % f = 0
      · simp [innerLoopCounted, innerLoop, hf, hdiv]
      · simp only [innerLoopCounted, innerLoop, hf, hdiv, if_false, List.length_cons]
        exact ⟨ih.1, by omega⟩

theorem loop_initial (factors : List Nat) (ub : Nat) (hnz : ∀ f ∈ factors, f ≠ 0)
    (hub : ub < UINT64_MOD) (fuel : Nat) (hfuel : ub - 1 ≤ fuel) :
    loop factors ub fuel ⟨1, 0⟩
      = Outcome.value (sumOfMultiples factors ub % UINT64_MOD) := by
  rcases Nat.eq_zero_or_pos ub with h0 | hpos
  · subst h0
    cases fuel with
    | zero => rw [loop_zero]; simp [sumOfMultiples]
    | succ n => rw [loop_succ]; simp [sumOfMultiples]
  · rw [loop_eq factors ub hnz hub fuel 1 0 (by omega) (by omega)
      (by unfold UINT64_MOD; omega)]
    simp [sumOfMultiples_eq_sumFrom]

/-! ## The claims on failure, recurrence and termination -/

/-- C11 fails as stated in its example: at `N = 2^33` the call
`solve([1, 0], N)` does not fail, but what it returns is not the sum of
`1..N-1`, which exceeds the 64-bit accumulator. -/
theorem solve_one_zero_not_exact_sum :
    8589934592 < UINT64_MOD
      ∧ solve [1, 0] 8589934592 ≠ Outcome.value (∑ m ∈ Finset.Ico 1 8589934592, m) := by
  refine ⟨by decide, ?_⟩
  rw [solve_one_zero_eq 8589934592 (by decide), sum_Ico_one]
  intro h
  injection h with h
  revert h
  unfold UINT64_MOD
  norm_num

/-- C11, amended: for every factor list and every 64-bit `upper_bound`, `solve`
fails exactly when `upper_bound ≥ 2`, the list holds a zero and no factor
before the first zero is 1; otherwise it returns a number; `solve([1, 0], N)`
returns the sum of `1..N-1` reduced modulo `2^64`; and a bound of at most 1
gives 0 whatever the list. -/
theorem solve_fails_iff (factors : List Nat) (upper_bound : Nat)
    (hub : upper_bound < UINT64_MOD) :
    (solve factors upper_bound = Outcome.invalidFactor
        ↔ (2 ≤ upper_bound ∧ 0 ∈ factors ∧ ∀ f ∈ beforeFirstZero factors, f ≠ 1))
      ∧ (¬ (2 ≤ upper_bound ∧ 0 ∈ factors ∧ ∀ f ∈ beforeFirstZero factors, f ≠ 1)
          → ∃ n, solve factors upper_bound = Outcome.value n)
      ∧ solve [1, 0] upper_bound
          = Outcome.value ((∑ m ∈ Finset.Ico 1 upper_bound, m) % UINT64_MOD)
      ∧ (upper_bound ≤ 1 → solve factors upper_bound = Outcome.value 0) :=
  ⟨(solve_fault_iff factors upper_bound hub).1, (solve_fault_iff factors upper_bound hub).2,
    solve_one_zero_eq upper_bound hub, solve_small_bound factors upper_bound⟩

/-- Witness of the amended C11: a zero behind the factors 3 and 2 makes the
scan below 10 fail, and `solve([1, 0], 10)` returns 45. -/
theorem solve_fails_iff_witness :
    ((solve [3, 2, 0, 1] 10 = Outcome.invalidFactor
        ↔ (2 ≤ 10 ∧ 0 ∈ [3, 2, 0, 1] ∧ ∀ f ∈ beforeFirstZero [3, 2, 0, 1], f ≠ 1))
      ∧ (¬ (2 ≤ 10 ∧ 0 ∈ [3, 2, 0, 1] ∧ ∀ f ∈ beforeFirstZero [3, 2, 0, 1], f ≠ 1)
          → ∃ n, solve [3, 2, 0, 1] 10 = Outcome.value n)
      ∧ solve [1, 0] 10 = Outcome.value ((∑ m ∈ Finset.Ico 1 10, m) % UINT64_MOD)
      ∧ (10 ≤ 1 → solve [3, 2, 0, 1] 10 = Outcome.value 0))
      ∧ solve [3, 2, 0, 1] 10 = Outcome.invalidFactor
      ∧ solve [1, 0] 10 = Outcome.value 45 :=
  ⟨solve_fails_iff [3, 2, 0, 1] 10 (by decide), by decide, by decide⟩

/-- C12: for non-zero factors and `1 ≤ N < 2^64 - 1`, `solve(factors, N + 1)` is
`solve(factors, N)` plus `N` when some factor divides `N` (plus 0 otherwise),
modulo `2^64`; and for `N ≤ M ≤ 2^32` the result at `N` is at most the result
at `M`. -/
theorem solve_step_recurrence (factors : List Nat) (hnz : ∀ f ∈ factors, f ≠ 0) :
    (∀ N, 1 ≤ N → N < UINT64_MOD - 1 →
        ∃ a b, solve factors N = Outcome.value a ∧ solve factors (N + 1) = Outcome.value b
          ∧ b = (a + (if ∃ f ∈ factors, f ∣ N then N else 0)) % UINT64_MOD)
      ∧ (∀ N M, N ≤ M → M ≤ 4294967296 →
        ∃ a b, solve factors N = Outcome.value a ∧ solve factors M = Outcome.value b
          ∧ a ≤ b) := by
  constructor
  · intro N h1 hN
    refine ⟨_, _, solve_eq factors N hnz (by omega), solve_eq factors (N + 1) hnz (by omega), ?_⟩
    rw [sumOfMultiples_succ factors h1, Nat.mod_add_mod]
    rfl
  · intro N M hNM hM
    have hfit : ∀ n, n ≤ M → sumOfMultiples factors n < UINT64_MOD := by
      intro n hn
      have h1 := sumOfMultiples_le factors n
      have h2 : n * (n - 1) / 2 ≤ 4294967296 * (4294967296 - 1) / 2 :=
        triangle_mono (le_trans hn hM)
      have h3 : 4294967296 * (4294967296 - 1) / 2 < UINT64_MOD := by decide
      omega
    have hMU : M < UINT64_MOD := by unfold UINT64_MOD; omega
    refine ⟨_, _, solve_eq factors N hnz (by omega), solve_eq factors M hnz hMU, ?_⟩
    rw [Nat.mod_eq_of_lt (hfit N hNM), Nat.mod_eq_of_lt (hfit M le_rfl)]
    exact sumOfMultiples_mono factors hNM

/-- Witness of C12 on the factors of the test, with the step from bound 10 to
bound 11 evaluated: 23 + 10 = 33. -/
theorem solve_step_recurrence_witness :
    ((∀ N, 1 ≤ N → N < UINT64_MOD - 1 →
        ∃ a b, solve [3, 5] N = Outcome.value a ∧ solve [3, 5] (N + 1) = Outcome.value b
          ∧ b = (a + (if ∃ f ∈ ([3, 5] : List Nat), f ∣ N then N else 0)) % UINT64_MOD)
      ∧ (∀ N M, N ≤ M → M ≤ 4294967296 →
        ∃ a b, solve [3, 5] N = Outcome.value a ∧ solve [3, 5] M = Outcome.value b
          ∧ a ≤ b))
      ∧ solve [3, 5] 10 = Outcome.value 23 ∧ solve [3, 5] 11 = Outcome.value 33 :=
  ⟨solve_step_recurrence [3, 5] (by decide), by decide, by decide⟩

/-- C13 fails as stated at `upper_bound = 0`: no iteration runs and `solve`
returns 0, but the counter, 1 from the start, exceeds the bound. -/
theorem counter_exceeds_zero_bound :
    solve [3, 5] 0 = Outcome.value 0
      ∧ iterations [3, 5] 0 0 ⟨1, 0⟩ = some ⟨1, 0⟩
      ∧ ¬ (State.multiple ⟨1, 0⟩ ≤ 0) := by
  decide

/-- C13, amended: for non-zero factors and every 64-bit bound `solve` returns,
with any fuel of at least `upper_bound - 1`; after `k ≤ upper_bound - 1`
iterations the counter is `k + 1`, at most `max(upper_bound, 1)` and below
`2^64`; after exactly `upper_bound - 1` iterations the loop condition is false
and no further iteration completes; and the inner loop body runs at most
`factor_count` times per candidate. -/
theorem solve_terminates (factors : List Nat) (upper_bound : Nat)
    (hnz : ∀ f ∈ factors, f ≠ 0) (hub : upper_bound < UINT64_MOD) :
    (∃ n, solve factors upper_bound = Outcome.value n
        ∧ ∀ fuel, upper_bound - 1 ≤ fuel →
            loop factors upper_bound fuel ⟨1, 0⟩ = Outcome.value n)
      ∧ (∀ k, k ≤ upper_bound - 1 →
          ∃ s, iterations factors upper_bound k ⟨1, 0⟩ = some s
            ∧ s.multiple = k + 1
            ∧ s.multiple ≤ max upper_bound 1
            ∧ s.multiple < UINT64_MOD)
      ∧ (∃ s, iterations factors upper_bound (upper_bound - 1) ⟨1, 0⟩ = some s
            ∧ ¬ s.multiple < upper_bound)
      ∧ (∀ k, upper_bound - 1 < k → iterations factors upper_bound k ⟨1, 0⟩ = none)
      ∧ (∀ m sum, (innerLoopCounted m factors sum).1 = innerLoop m factors sum
            ∧ (innerLoopCounted m factors sum).2 ≤ factors.length) := by
  have hU : UINT64_MOD = 18446744073709551616 := rfl
  refine ⟨⟨_, solve_eq factors upper_bound hnz hub,
      fun fuel hfuel => loop_initial factors upper_bound hnz hub fuel hfuel⟩, ?_, ?_, ?_,
    fun m sum => innerLoopCounted_spec m factors sum⟩
  · intro k hk
    obtain ⟨s, hs, hm⟩ := iterations_initial factors upper_bound hnz hub k hk
    refine ⟨s, hs, hm, ?_, ?_⟩
    · rw [hm]
      rcases Nat.eq_zero_or_pos upper_bound with h0 | hpos
      · subst h0; simp at hk; subst hk; simp
      · exact le_trans (by omega) (le_max_left _ _)
    · omega
  · obtain ⟨s, hs, hm⟩ :=
      iterations_initial factors upper_bound hnz hub (upper_bound - 1) le_rfl
    exact ⟨s, hs, by omega⟩
  · intro k hk
    obtain ⟨s, hs, hm⟩ :=
      iterations_initial factors upper_bound hnz hub (upper_bound - 1) le_rfl
    obtain ⟨j, rfl⟩ : ∃ j, k = (upper_bound - 1) + (j + 1) :=
      ⟨k - (upper_bound - 1) - 1, by omega⟩
    rw [iterations_add, hs]
    exact iterations_exit factors upper_bound j s (by omega)

/-- Witness of the amended C13 at the largest bound, `2^64 - 1`. -/
theorem solve_terminates_witness :
    (∃ n, solve [3, 5] 18446744073709551615 = Outcome.value n
        ∧ ∀ fuel, 18446744073709551615 - 1 ≤ fuel →
            loop [3, 5] 18446744073709551615 fuel ⟨1, 0⟩ = Outcome.value n)
      ∧ (∀ k, k ≤ 18446744073709551615 - 1 →
          ∃ s, iterations [3, 5] 18446744073709551615 k ⟨1, 0⟩ = some s
            ∧ s.multiple = k + 1
            ∧ s.multiple ≤ max 18446744073709551615 1
            ∧ s.multiple < UINT64_MOD)
      ∧ (∃ s, iterations [3, 5] 18446744073709551615 (18446744073709551615 - 1) ⟨1, 0⟩
            = some s
            ∧ ¬ s.multiple < 18446744073709551615)
      ∧ (∀ k, 18446744073709551615 - 1 < k →
          iterations [3, 5] 18446744073709551615 k ⟨1, 0⟩ = none)
      ∧ (∀ m sum, (innerLoopCounted m [3, 5] sum).1 = innerLoop m [3, 5] sum
            ∧ (innerLoopCounted m [3, 5] sum).2 ≤ [3, 5].length) :=
  solve_terminates [3, 5] 18446744073709551615 (by decide) (by decide)

end PluginServer
